import Mathlib

/-!
Shallow embedding of gprepo (src/main.rs).

The tool walks a repository working tree and emits each selected file as a
framed block of normalized text.  This file embeds the parts of the source
with decision logic: the binary sniffer `is_binary`, the per-extension
content normalizer `process_file_contents`, the path prefix matcher
`is_child_of`, the exclude glob set built in `main`, and the per-entry
selection pipeline of the traversal loop in `main`.

Modelling conventions: strings are lists of characters, file bytes are
lists of natural numbers, `SystemTime` values are natural numbers.  The
buffered reads of `is_binary` are modelled by the deterministic chunking a
buffered reader performs on a regular file: every `read` into the
1024-byte buffer returns `min 1024 remaining` bytes.  The compiled glob
matchers of the `globset` crate are modelled as boolean predicates on the
path string; each built-in pattern is embedded under globset's default
(case-sensitive, `*` matches any characters, including separators)
semantics.  The external collaborators named by the spec (argument
parsing, repository discovery, the ignore-status predicate, raw file
reads) appear as fields of `Config` and `Entry` holding their results.
-/

/-- Loop body of `is_binary`: repeatedly read the next chunk of up to 1024
bytes, return `true` on the first zero byte seen in a chunk, and stop once
1024 bytes have been accumulated or the file is exhausted. -/
def isBinaryGo (bytes : List Nat) (total_read : Nat) : Bool :=
  if h : bytes.take 1024 = [] then false
  else if (bytes.take 1024).any (fun b => b == 0) then true
  else if 1024 ≤ total_read + (bytes.take 1024).length then false
  else isBinaryGo (bytes.drop 1024) (total_read + (bytes.take 1024).length)
termination_by bytes.length
decreasing_by
  have hb : bytes ≠ [] := fun hnil => h (by rw [hnil]; rfl)
  have hpos : 0 < bytes.length := List.length_pos.mpr hb
  rw [List.length_drop]
  omega

/-- Embeds `is_binary`: the file is classified binary when the bounded
prefix scan sees a zero byte. -/
def is_binary (bytes : List Nat) : Bool := isBinaryGo bytes 0

/-- The significant-whitespace extension table of `process_file_contents`. -/
def significant_whitespace_extensions : List String :=
  ["py", "nim", "hs", "yml", "yaml", "coffee", "jade", "pug", "slim", "sass", "haml"]

/-- The no-indentation extension table of `process_file_contents`. -/
def no_indentation_extensions : List String :=
  ["rs", "js", "jsx", "ts", "tsx", "c", "cpp", "h", "hpp", "java", "go", "cs", "rb", "php",
   "swift", "kt", "kts", "scala", "groovy", "fs", "fsx", "clj", "cljs", "edn", "lisp", "el",
   "scm", "ss", "rkt", "jl", "lua", "tcl", "pl", "pm", "elm", "erl", "hrl", "v", "sv", "svh",
   "html", "css", "scss", "less", "json", "xml", "sql", "md", "toml", "ini", "conf", "cfg",
   "sh", "bash", "zsh", "ps1", "awk", "sed"]

/-- Embeds Rust `line.replace("    ", "\t")`: the leftmost occurrence of
four consecutive spaces is replaced by a tab and scanning resumes after it,
left to right, non-overlapping, across the whole line. -/
def replaceFourSpaces : List Char → List Char
  | ' ' :: ' ' :: ' ' :: ' ' :: rest => '\t' :: replaceFourSpaces rest
  | c :: rest => c :: replaceFourSpaces rest
  | [] => []

/-- Embeds Rust `char::is_whitespace`: the Unicode White_Space property
(code points 9 to 13, 32, 133, 160, 5760, 8192 to 8202, 8232, 8233, 8239,
8287, 12288). -/
def rustIsWhitespace (c : Char) : Bool :=
  (9 ≤ c.toNat && c.toNat ≤ 13) || c.toNat == 32 || c.toNat == 133 || c.toNat == 160 ||
    c.toNat == 5760 || (8192 ≤ c.toNat && c.toNat ≤ 8202) || c.toNat == 8232 ||
    c.toNat == 8233 || c.toNat == 8239 || c.toNat == 8287 || c.toNat == 12288

/-- Embeds Rust `str::trim_start`: drop the longest whitespace prefix. -/
def trimStart (line : List Char) : List Char := line.dropWhile rustIsWhitespace

/-- The per-line branch of `process_file_contents` (the value bound to
`processed_line` in the source loop), keyed by the file extension. -/
def processLine (extension : String) (line : List Char) : List Char :=
  if significant_whitespace_extensions.contains extension then replaceFourSpaces line
  else if no_indentation_extensions.contains extension then trimStart line
  else line

/-- Split a character list at every newline character; always returns one
more piece than there are newlines. -/
def splitNl : List Char → List (List Char)
  | [] => [[]]
  | c :: rest =>
    if c = '\n' then [] :: splitNl rest
    else
      match splitNl rest with
      | [] => [[c]]
      | p :: ps => (c :: p) :: ps

/-- Strip one trailing carriage return, as Rust `str::lines` does from a
piece that was terminated by a newline. -/
def stripCr (l : List Char) : List Char :=
  if l.getLast? = some '\r' then l.dropLast else l

/-- Finish the pieces of `splitNl` the way Rust `str::lines` does: every
piece except the last was newline-terminated, so it loses one trailing
carriage return; the last piece is dropped when empty (a trailing final
line terminator produces no extra line) and kept verbatim otherwise. -/
def finishLines : List (List Char) → List (List Char)
  | [] => []
  | [last] => if last = [] then [] else [last]
  | p :: q :: rest => stripCr p :: finishLines (q :: rest)

/-- Embeds Rust `content.lines()`. -/
def rustLines (content : List Char) : List (List Char) :=
  finishLines (splitNl content)

/-- Embeds `process_file_contents`, parameterized directly by the file
extension (the source derives it from the path via `Path::extension`,
defaulting to the empty string): fold over the input lines, appending each
non-empty processed line followed by a newline to the accumulator. -/
def process_file_contents (extension : String) (content : List Char) : List Char :=
  List.foldl
    (fun processed line =>
      let processed_line := processLine extension line
      if !processed_line.isEmpty then processed ++ processed_line ++ ['\n'] else processed)
    [] (rustLines content)

/-- Embeds `parent.trim_end_matches('/')`: remove every trailing slash. -/
def trimEndSlashes (parent : List Char) : List Char :=
  ((parent.reverse).dropWhile (fun c => c == '/')).reverse

/-- Embeds `is_child_of`: after stripping trailing slashes from `parent`,
`child` must start with it and either end there or continue with a slash. -/
def is_child_of (child parent : List Char) : Bool :=
  (trimEndSlashes parent).isPrefixOf child
    && (child.length == (trimEndSlashes parent).length
        || ((child.drop (trimEndSlashes parent).length).head? == some '/'))

/-- Substring test used to embed the `*X*` glob patterns. -/
def containsSub (needle hay : List Char) : Bool :=
  hay.tails.any (fun t => needle.isPrefixOf t)

/-- Embeds the compiled glob "*changelog*": the path contains the
lowercase substring "changelog". -/
def matchChangelogLower (s : List Char) : Bool := containsSub (("changelog").toList) s

/-- Embeds the compiled glob "*CHANGELOG*": the path contains the
uppercase substring "CHANGELOG". -/
def matchChangelogUpper (s : List Char) : Bool := containsSub (("CHANGELOG").toList) s

/-- Embeds the compiled glob ".github*": the path starts with ".github". -/
def matchGithub (s : List Char) : Bool := ((".github").toList).isPrefixOf s

/-- Embeds the compiled glob ".gitignore": the path is exactly ".gitignore". -/
def matchGitignoreFile (s : List Char) : Bool := s == (".gitignore").toList

/-- Embeds the compiled glob "gprepo": the path is exactly "gprepo". -/
def matchGprepo (s : List Char) : Bool := s == ("gprepo").toList

/-- Embeds the compiled glob "*LICENSE*": the path contains "LICENSE". -/
def matchLicense (s : List Char) : Bool := containsSub (("LICENSE").toList) s

/-- Embeds the compiled glob "*.lock": the path ends with ".lock". -/
def matchLockSuffix (s : List Char) : Bool := ((".lock").toList).isSuffixOf s

/-- Embeds the compiled glob "*README*": the path contains "README". -/
def matchReadme (s : List Char) : Bool := containsSub (("README").toList) s

/-- The built-in default patterns added to the glob set builder, in source
order. -/
def defaultPatternMatchers : List (List Char → Bool) :=
  [matchChangelogLower, matchChangelogUpper, matchGithub, matchGitignoreFile,
   matchGprepo, matchLicense, matchLockSuffix, matchReadme]

/-- Embeds the `exclude_set` builder: user-supplied patterns first, then
the built-in defaults. -/
def exclude_set (userMatchers : List (List Char → Bool)) : List (List Char → Bool) :=
  userMatchers ++ defaultPatternMatchers

/-- Embeds `GlobSet::is_match`: some pattern of the set matches. -/
def globSetIsMatch (patterns : List (List Char → Bool)) (s : List Char) : Bool :=
  patterns.any (fun f => f s)

/-- The run configuration visible to the traversal loop of `main`:
the parsed `--exclude` and `--include` values (`none` when the flag is
absent), the compiled exclude glob set, the `--output` path as given, and
the process start time captured before traversal. -/
structure Config where
  excludeArgs : Option (List (List Char))
  includeArgs : Option (List (List Char))
  globs : List (List Char → Bool)
  outputPath : Option (List Char)
  startTime : Nat

/-- One filesystem entry of the walk, together with the results returned
by the external collaborators for it: whether it is a regular file, its
path, its root-relative path when valid UTF-8 (`to_str`), the
ignore-status lookup, the last-modified time when available, and its
bytes. -/
structure Entry where
  isFile : Bool
  path : List Char
  relPathUtf8 : Option (List Char)
  ignored : Bool
  modified : Option Nat
  bytes : List Nat

/-- The verdict of the selection pipeline for one entry. -/
inductive Verdict where
  | skip
  | emit
deriving DecidableEq

/-- Embeds `relative_file_path.to_str().unwrap_or("")`. -/
def pathStrOf (e : Entry) : List Char := e.relPathUtf8.getD []

/-- Embeds the `should_exclude` computation of the traversal loop. -/
def shouldExclude (cfg : Config) (path_str : List Char) : Bool :=
  match cfg.excludeArgs with
  | some ps => ps.any (fun p => is_child_of path_str p)
  | none => false

/-- Embeds the `should_include` computation of the traversal loop: true
when the `--include` flag is absent, otherwise true when some include
prefix matches. -/
def shouldInclude (cfg : Config) (path_str : List Char) : Bool :=
  match cfg.includeArgs with
  | none => true
  | some ps => ps.any (fun p => is_child_of path_str p)

/-- Embeds the modification-time guard: skip when a modified time is
available and is at or after the process start time; when the modified
time is unavailable the guard is silently false. -/
def mtimeSkip (cfg : Config) (e : Entry) : Bool :=
  match e.modified with
  | some t => decide (cfg.startTime ≤ t)
  | none => false

/-- Embeds the per-entry decision chain of the traversal loop of `main`,
in source order: regular-file gate, exclude and include prefix filters,
exclude glob set, ignore-status, output self-exclusion, modification-time
guard, binary sniff; an entry surviving all of them is emitted. -/
def pipelineDecision (cfg : Config) (e : Entry) : Verdict :=
  if e.isFile = false then .skip
  else if (shouldExclude cfg (pathStrOf e) || !shouldInclude cfg (pathStrOf e)) = true then .skip
  else if globSetIsMatch cfg.globs (pathStrOf e) = true then .skip
  else if e.ignored = true then .skip
  else if cfg.outputPath = some e.path then .skip
  else if mtimeSkip cfg e = true then .skip
  else if is_binary e.bytes = true then .skip
  else .emit

/-- Spec-side description of the emitted output: each surviving line is
written followed by exactly one newline. -/
def emitLines : List (List Char) → List Char
  | [] => []
  | l :: ls => l ++ '\n' :: emitLines ls

/-- Modelled from the spec's words for the significant-whitespace rule:
`SpecReplaced line out` states that `out` is `line` with four consecutive
space characters replaced by a single tab, applied left-to-right,
non-overlapping and repeatedly across the whole line content. -/
inductive SpecReplaced : List Char → List Char → Prop
  | nil : SpecReplaced [] []
  | tab {rest out : List Char} : SpecReplaced rest out →
      SpecReplaced (' ' :: ' ' :: ' ' :: ' ' :: rest) ('\t' :: out)
  | chr {c : Char} {rest out : List Char} :
      (∀ r : List Char, c :: rest ≠ ' ' :: ' ' :: ' ' :: ' ' :: r) →
      SpecReplaced rest out → SpecReplaced (c :: rest) (c :: out)

/-- Modelled from the spec's words for is-descendant-or-equal: the child
equals the parent after stripping trailing slashes, or starts with the
stripped parent followed immediately by a slash. -/
def isDescendantOrEqualSpec (child parent : List Char) : Prop :=
  child = trimEndSlashes parent ∨ (trimEndSlashes parent ++ ['/']) <+: child

/-- Modelled from the spec: resolution of a possibly relative path against
a working directory, the sense in which the spec speaks of the output
destination's "resolved path".  The source performs no such resolution. -/
def resolvePath (cwd p : List Char) : List Char :=
  if p.head? = some '/' then p else cwd ++ '/' :: p

/-- ASCII lowercasing of one character. -/
def asciiLowerChar (c : Char) : Char :=
  if 65 ≤ c.toNat ∧ c.toNat ≤ 90 then Char.ofNat (c.toNat + 32) else c

/-- A path names a changelog file in some letter case: lowercased, it
contains the substring "changelog". -/
def isChangelogNameAnyCase (s : List Char) : Bool :=
  containsSub (("changelog").toList) (s.map asciiLowerChar)

/-- Fixture: a run with no filters beyond the seeded defaults. -/
def plainCfg : Config := ⟨none, none, exclude_set [], none, 1⟩

/-- Fixture: a text file named Changelog, modified before the run started. -/
def changelogEntry : Entry :=
  ⟨true, ("/w/Changelog").toList, some (("Changelog").toList), false, some 0, [104]⟩

/-- Fixture: a lock file caught by the seeded "*.lock" pattern. -/
def lockEntry : Entry :=
  ⟨true, ("/w/Cargo.lock").toList, some (("Cargo.lock").toList), false, some 0, [104]⟩

/-- Fixture: a run whose output destination is the relative path out.txt. -/
def outputSelfCfg : Config := ⟨none, none, exclude_set [], some (("out.txt").toList), 1⟩

/-- Fixture: the output file as the walk sees it, by absolute path. -/
def outputSelfEntry : Entry :=
  ⟨true, ("/w/out.txt").toList, some (("out.txt").toList), false, some 0, [104]⟩

/-- Fixture: a run whose output destination is the absolute path /w/x. -/
def outputAbsCfg : Config := ⟨none, none, exclude_set [], some (("/w/x").toList), 1⟩

/-- Fixture: the entry at the exact path /w/x. -/
def outputAbsEntry : Entry :=
  ⟨true, ("/w/x").toList, some (("x").toList), false, some 0, [104]⟩

/-- Fixture: a run started at time 5. -/
def mtimeCfg : Config := ⟨none, none, exclude_set [], none, 5⟩

/-- Fixture: a file modified at time 7, after the run started. -/
def mtimeEntry : Entry :=
  ⟨true, ("/w/a.txt").toList, some (("a.txt").toList), false, some 7, [104]⟩

/-- Fixture: a run restricted to the include prefix src. -/
def includeSrcCfg : Config := ⟨none, some [("src").toList], exclude_set [], none, 1⟩

/-- Fixture: a regular file whose relative path is not valid UTF-8. -/
def invalidUtf8Entry : Entry :=
  ⟨true, ("/w/bad").toList, none, false, some 0, [104]⟩

/-- Fixture: a run with the configured exclude prefix "/", which matches
only the empty path string. -/
def slashExcludeCfg : Config := ⟨some [("/").toList], none, exclude_set [], none, 1⟩

/-- Fixture: a second regular file whose relative path is not valid UTF-8,
for the run without the slash exclude. -/
def invalidUtf8EntryB : Entry :=
  ⟨true, ("/w/bad2").toList, none, false, some 0, [104]⟩

/-- Fixture: a binary file, its second byte zero. -/
def zeroByteEntry : Entry :=
  ⟨true, ("/w/blob.bin").toList, some (("blob.bin").toList), false, some 0, [65, 0, 66]⟩

/-- Fixture: a text file with no modified time available. -/
def noMtimeEntry : Entry :=
  ⟨true, ("/w/src/main.rs").toList, some (("src/main.rs").toList), false, none, [102, 110]⟩

theorem isBinaryGo_spec (bytes : List Nat) (total_read : Nat) :
    isBinaryGo bytes total_read = (bytes.take 1024).any (fun b => b == 0) := by
  unfold isBinaryGo
  split
  · rename_i h
    rw [h]
    rfl
  · rename_i h
    split
    · rename_i hz
      exact hz.symm
    · rename_i hz
      rw [Bool.not_eq_true] at hz
      split
      · exact hz.symm
      · rename_i hge
        have hlen : (bytes.take 1024).length < 1024 := by omega
        have hble : bytes.length ≤ 1024 := by
          by_contra hgt
          push_neg at hgt
          have : (bytes.take 1024).length = 1024 := List.length_take_of_le (le_of_lt hgt)
          omega
        rw [List.drop_eq_nil_of_le hble]
        rw [show isBinaryGo [] (total_read + (bytes.take 1024).length) = false from by
          unfold isBinaryGo
          simp]
        exact hz.symm

theorem is_binary_spec (bytes : List Nat) :
    is_binary bytes = (bytes.take 1024).any (fun b => b == 0) :=
  isBinaryGo_spec bytes 0

theorem specReplaced_replaceFourSpaces (line : List Char) :
    SpecReplaced line (replaceFourSpaces line) := by
  induction line using replaceFourSpaces.induct with
  | case1 rest ih =>
    exact SpecReplaced.tab ih
  | case2 c rest h ih =>
    have hne : ∀ r : List Char, c :: rest ≠ ' ' :: ' ' :: ' ' :: ' ' :: r := by
      intro r heq
      simp only [List.cons.injEq] at heq
      exact h r heq.1 (by simp [heq.2])
    rw [replaceFourSpaces.eq_2 c rest h]
    exact SpecReplaced.chr hne ih
  | case3 =>
    exact SpecReplaced.nil

theorem replaceFourSpaces_no_newline (line : List Char) :
    '\n' ∉ line → '\n' ∉ replaceFourSpaces line := by
  induction line using replaceFourSpaces.induct with
  | case1 rest ih =>
    intro h hc
    have hr : '\n' ∉ rest := fun hm => h (by simp [hm])
    rcases List.mem_cons.mp hc with h1 | h2
    · exact absurd h1 (by decide)
    · exact ih hr h2
  | case2 c rest h ih =>
    intro hnl hc
    rw [replaceFourSpaces.eq_2 c rest h] at hc
    have hr : '\n' ∉ rest := fun hm => hnl (by simp [hm])
    rcases List.mem_cons.mp hc with h1 | h2
    · exact hnl (List.mem_cons.mpr (Or.inl h1))
    · exact ih hr h2
  | case3 =>
    intro _ hc
    simp [replaceFourSpaces] at hc

theorem head_dropWhile_not {α : Type} (p : α → Bool) :
    ∀ (l : List α) (c : α), (l.dropWhile p).head? = some c → p c = false := by
  intro l
  induction l with
  | nil =>
    intro c h
    simp [List.dropWhile] at h
  | cons a as ih =>
    intro c h
    rw [List.dropWhile_cons] at h
    split at h
    · exact ih c h
    · rename_i hpa
      simp at h
      rw [← h]
      simpa using hpa

theorem splitNl_no_newline : ∀ (content : List Char), ∀ l ∈ splitNl content, '\n' ∉ l := by
  intro content
  induction content with
  | nil =>
    intro l hl
    simp only [splitNl, List.mem_singleton] at hl
    simp [hl]
  | cons c rest ih =>
    intro l hl
    simp only [splitNl] at hl
    split at hl
    · rcases List.mem_cons.mp hl with rfl | hmem
      · simp
      · exact ih l hmem
    · rename_i hc
      split at hl
      · rename_i heq
        simp only [List.mem_singleton] at hl
        subst hl
        intro hin
        simp only [List.mem_singleton] at hin
        exact hc hin.symm
      · rename_i p ps heq
        rcases List.mem_cons.mp hl with rfl | hmem
        · intro hin
          rcases List.mem_cons.mp hin with h1 | h2
          · exact hc h1.symm
          · exact ih p (by rw [heq]; exact List.mem_cons_self p ps) h2
        · exact ih l (by rw [heq]; exact List.mem_cons_of_mem p hmem)

theorem stripCr_no_newline (l : List Char) (h : '\n' ∉ l) : '\n' ∉ stripCr l := by
  unfold stripCr
  split
  · intro hc
    exact h ((List.dropLast_sublist l).subset hc)
  · exact h

theorem finishLines_no_newline :
    ∀ (L : List (List Char)), (∀ l ∈ L, '\n' ∉ l) → ∀ l ∈ finishLines L, '\n' ∉ l := by
  intro L
  induction L with
  | nil =>
    intro _ l hl
    simp [finishLines] at hl
  | cons p rest ih =>
    intro hL l hl
    cases rest with
    | nil =>
      simp only [finishLines] at hl
      split at hl
      · simp at hl
      · simp only [List.mem_singleton] at hl
        subst hl
        exact hL l (by simp)
    | cons q rest2 =>
      simp only [finishLines] at hl
      rcases List.mem_cons.mp hl with rfl | hmem
      · exact stripCr_no_newline p (hL p (by simp))
      · exact ih (fun x hx => hL x (List.mem_cons_of_mem p hx)) l hmem

theorem rustLines_no_newline (content : List Char) :
    ∀ l ∈ rustLines content, '\n' ∉ l :=
  finishLines_no_newline (splitNl content) (splitNl_no_newline content)

theorem processLine_no_newline (extension : String) (line : List Char)
    (h : '\n' ∉ line) : '\n' ∉ processLine extension line := by
  unfold processLine
  split
  · exact replaceFourSpaces_no_newline line h
  · split
    · intro hc
      exact h ((List.dropWhile_sublist rustIsWhitespace).subset hc)
    · exact h

theorem process_fold (extension : String) (lines : List (List Char)) (acc : List Char) :
    List.foldl
        (fun processed line =>
          let processed_line := processLine extension line
          if !processed_line.isEmpty then processed ++ processed_line ++ ['\n'] else processed)
        acc lines
      = acc ++ emitLines ((lines.map (processLine extension)).filter (fun l => !l.isEmpty)) := by
  induction lines generalizing acc with
  | nil => simp [emitLines]
  | cons l ls ih =>
    rw [List.foldl_cons, ih]
    by_cases h : processLine extension l = []
    · simp [List.filter_cons, h]
    · simp [List.filter_cons, h, emitLines, List.append_assoc]

theorem process_file_contents_eq (extension : String) (content : List Char) :
    process_file_contents extension content
      = emitLines (((rustLines content).map (processLine extension)).filter
          (fun l => !l.isEmpty)) := by
  unfold process_file_contents
  rw [process_fold]
  simp

theorem noIndent_not_sig :
    ∀ x ∈ no_indentation_extensions, significant_whitespace_extensions.contains x = false := by
  decide

/-- Claim C1: for every file whose extension is in the
significant-whitespace class and every input line, the normalizer replaces
runs of four consecutive spaces by single tabs, left-to-right,
non-overlapping and repeatedly across the whole line content (not only
leading whitespace); the surviving lines are emitted each followed by a
newline. -/
theorem significant_whitespace_normalization :
    (∀ line : List Char, SpecReplaced line (replaceFourSpaces line))
    ∧ ∀ extension : String, extension ∈ significant_whitespace_extensions →
        ∀ content : List Char,
          process_file_contents extension content
            = emitLines (((rustLines content).map replaceFourSpaces).filter
                (fun l => !l.isEmpty)) := by
  refine ⟨specReplaced_replaceFourSpaces, ?_⟩
  intro extension hmem content
  rw [process_file_contents_eq]
  have hpl : ∀ line ∈ rustLines content,
      processLine extension line = replaceFourSpaces line := by
    intro line _
    unfold processLine
    rw [if_pos (List.elem_iff.mpr hmem)]
  rw [List.map_congr_left hpl]

/-- Claim C1 witness: py, yml and hs are significant-whitespace
extensions, and a concrete line is rewritten across its whole content. -/
theorem significant_whitespace_normalization_witness :
    (("py") ∈ significant_whitespace_extensions
      ∧ ("yml") ∈ significant_whitespace_extensions
      ∧ ("hs") ∈ significant_whitespace_extensions)
    ∧ SpecReplaced (("a    b        c").toList) (("a\tb\t\tc").toList)
    ∧ process_file_contents ("py") (("a    b        c").toList) = ("a\tb\t\tc\n").toList := by
  refine ⟨by decide, ?_, ?_⟩
  · exact significant_whitespace_normalization.1 (("a    b        c").toList)
  · exact (significant_whitespace_normalization.2 ("py") (by decide)
      (("a    b        c").toList)).trans (by decide)

/-- Claim C2: for every file whose extension is in the no-indentation
class, each line loses exactly its leading whitespace (the dropped prefix
is whitespace, the rest of the line is unchanged), and no emitted line
starts with a space or a tab. -/
theorem no_indentation_normalization :
    ∀ extension : String, extension ∈ no_indentation_extensions →
      ∀ content : List Char,
        (process_file_contents extension content
          = emitLines (((rustLines content).map trimStart).filter (fun l => !l.isEmpty)))
        ∧ (∀ line : List Char,
            line.takeWhile rustIsWhitespace ++ trimStart line = line
            ∧ ∀ c ∈ line.takeWhile rustIsWhitespace, rustIsWhitespace c = true)
        ∧ ∀ l ∈ ((rustLines content).map trimStart).filter (fun l => !l.isEmpty),
            l.head? ≠ some ' ' ∧ l.head? ≠ some '\t' := by
  intro extension hmem content
  have hnots : significant_whitespace_extensions.contains extension = false :=
    noIndent_not_sig extension hmem
  have hpl : ∀ line ∈ rustLines content, processLine extension line = trimStart line := by
    intro line _
    unfold processLine
    rw [if_neg (by rw [hnots]; exact Bool.false_ne_true),
      if_pos (List.elem_iff.mpr hmem)]
  refine ⟨?_, ?_, ?_⟩
  · rw [process_file_contents_eq, List.map_congr_left hpl]
  · intro line
    exact ⟨List.takeWhile_append_dropWhile rustIsWhitespace line,
      fun c hc => List.mem_takeWhile_imp hc⟩
  · intro l hl
    rw [List.mem_filter] at hl
    obtain ⟨hmem2, _⟩ := hl
    rw [List.mem_map] at hmem2
    obtain ⟨line, _, rfl⟩ := hmem2
    constructor
    · intro hsp
      exact absurd (head_dropWhile_not rustIsWhitespace line ' ' hsp) (by decide)
    · intro htab
      exact absurd (head_dropWhile_not rustIsWhitespace line '\t' htab) (by decide)

/-- Claim C2 witness: rs is a no-indentation extension and a concrete file
has its leading whitespace stripped while inner spacing survives. -/
theorem no_indentation_normalization_witness :
    ("rs") ∈ no_indentation_extensions
    ∧ process_file_contents ("rs") (("  \tfn main\n   x").toList) = ("fn main\nx\n").toList
    ∧ (("fn main").toList).head? ≠ some ' ' := by
  refine ⟨by decide, ?_, ?_⟩
  · exact ((no_indentation_normalization ("rs") (by decide)
      (("  \tfn main\n   x").toList)).1).trans (by decide)
  · exact ((no_indentation_normalization ("rs") (by decide)
      (("  \tfn main\n   x").toList)).2.2 (("fn main").toList) (by decide)).1

/-- Claim C3: for every extension and content the normalizer emits exactly
the non-empty processed lines, each followed by one newline, in input
order (the emitted list is a sublist of the processed lines), and every
emitted line is non-empty and newline-free; the result is a pure function
of extension and content. -/
theorem normalizer_output_shape :
    ∀ (extension : String) (content : List Char),
      (process_file_contents extension content
        = emitLines (((rustLines content).map (processLine extension)).filter
            (fun l => !l.isEmpty)))
      ∧ (∀ l ∈ ((rustLines content).map (processLine extension)).filter
            (fun l => !l.isEmpty), l ≠ [] ∧ '\n' ∉ l)
      ∧ (((rustLines content).map (processLine extension)).filter
            (fun l => !l.isEmpty)).Sublist ((rustLines content).map (processLine extension)) := by
  intro extension content
  refine ⟨process_file_contents_eq extension content, ?_, List.filter_sublist _⟩
  intro l hl
  rw [List.mem_filter] at hl
  obtain ⟨hmem, hne⟩ := hl
  constructor
  · intro hnil
    rw [hnil] at hne
    simp at hne
  · rw [List.mem_map] at hmem
    obtain ⟨line, hline, rfl⟩ := hmem
    exact processLine_no_newline extension line (rustLines_no_newline content line hline)

/-- Claim C3 witness: a blank input line is dropped, the rest are emitted
with exactly one newline each, in order. -/
theorem normalizer_output_shape_witness :
    process_file_contents ("txt") (("a\n\nb").toList) = ("a\nb\n").toList
    ∧ (("a").toList ≠ [] ∧ '\n' ∉ (("a").toList)) := by
  constructor
  · exact ((normalizer_output_shape ("txt") (("a\n\nb").toList)).1).trans (by decide)
  · exact (normalizer_output_shape ("txt") (("a\n\nb").toList)).2.1 (("a").toList) (by decide)

theorem is_child_of_nil_false (p : List Char) (h : trimEndSlashes p ≠ []) :
    is_child_of [] p = false := by
  unfold is_child_of
  cases hq : trimEndSlashes p with
  | nil => exact absurd hq h
  | cons c q => rfl

theorem pipeline_emit_iff (cfg : Config) (e : Entry) :
    pipelineDecision cfg e = Verdict.emit ↔
      (e.isFile = true
       ∧ (shouldExclude cfg (pathStrOf e) || !shouldInclude cfg (pathStrOf e)) = false
       ∧ globSetIsMatch cfg.globs (pathStrOf e) = false
       ∧ e.ignored = false
       ∧ ¬ cfg.outputPath = some e.path
       ∧ mtimeSkip cfg e = false
       ∧ is_binary e.bytes = false) := by
  unfold pipelineDecision
  split_ifs with h1 h2 h3 h4 h5 h6 h7 <;> simp_all
  intro hse hsi
  rcases h2 with h2 | h2 <;> simp_all

/-- Claim C5: `is_child_of` decides is-descendant-or-equal exactly as the
spec words it, and agrees with the spec's three examples. -/
theorem is_child_of_spec :
    (∀ child parent : List Char,
      is_child_of child parent = true ↔ isDescendantOrEqualSpec child parent)
    ∧ is_child_of (("src/main.rs").toList) (("src").toList) = true
    ∧ is_child_of (("srcfoo/main.rs").toList) (("src").toList) = false
    ∧ is_child_of (("src").toList) (("src/").toList) = true := by
  refine ⟨?_, by decide, by decide, by decide⟩
  intro child parent
  unfold is_child_of isDescendantOrEqualSpec
  constructor
  · intro h
    rw [Bool.and_eq_true] at h
    obtain ⟨h1, h2⟩ := h
    rw [List.isPrefixOf_iff_prefix] at h1
    obtain ⟨t, rfl⟩ := h1
    rw [Bool.or_eq_true] at h2
    rcases h2 with hlen | hslash
    · left
      rw [beq_iff_eq, List.length_append] at hlen
      have ht : t = [] := List.length_eq_zero.mp (by omega)
      rw [ht, List.append_nil]
    · right
      rw [beq_iff_eq, List.drop_left] at hslash
      cases t with
      | nil => simp at hslash
      | cons c t2 =>
        simp only [List.head?_cons, Option.some.injEq] at hslash
        subst hslash
        exact ⟨t2, by simp⟩
  · intro h
    rcases h with rfl | hpre
    · rw [Bool.and_eq_true]
      refine ⟨List.isPrefixOf_iff_prefix.mpr (List.prefix_refl _), ?_⟩
      rw [Bool.or_eq_true]
      left
      exact beq_iff_eq.mpr rfl
    · obtain ⟨t, rfl⟩ := hpre
      rw [Bool.and_eq_true]
      constructor
      · rw [List.isPrefixOf_iff_prefix]
        exact ⟨'/' :: t, by simp⟩
      · rw [Bool.or_eq_true]
        right
        rw [beq_iff_eq, List.append_assoc, List.singleton_append, List.drop_left]
        rfl

/-- Claim C5 witness: the characterization instantiated at a concrete
child and parent. -/
theorem is_child_of_spec_witness :
    is_child_of (("a/b").toList) (("a").toList) = true ↔
      isDescendantOrEqualSpec (("a/b").toList) (("a").toList) :=
  is_child_of_spec.1 (("a/b").toList) (("a").toList)

/-- Claim C4: the binary detector classifies a file as binary exactly when
some byte among the first 1024 bytes is zero, and any entry whose first
1024 bytes contain a zero byte is skipped by the pipeline, never emitted,
whatever the configuration. -/
theorem binary_detector_spec :
    (∀ bytes : List Nat, is_binary bytes = ((bytes.take 1024).any (fun b => b == 0)))
    ∧ ∀ (cfg : Config) (e : Entry),
        ((e.bytes.take 1024).any (fun b => b == 0)) = true →
        pipelineDecision cfg e = Verdict.skip := by
  refine ⟨is_binary_spec, ?_⟩
  intro cfg e h
  have hb : is_binary e.bytes = true := by rw [is_binary_spec]; exact h
  unfold pipelineDecision
  split_ifs <;> first | rfl | simp_all

/-- Claim C4 witness: a file whose second byte is zero is classified
binary and is skipped under an unrestricted configuration. -/
theorem binary_detector_spec_witness :
    is_binary [65, 0, 66] = true ∧ pipelineDecision plainCfg zeroByteEntry = Verdict.skip := by
  constructor
  · rw [binary_detector_spec.1]
    decide
  · exact binary_detector_spec.2 plainCfg zeroByteEntry (by decide)

/-- Claim C6 (amended): the exclude glob set is always seeded with the
built-in defaults in addition to any user-supplied patterns; the defaults
match paths containing "changelog" in all-lowercase or "CHANGELOG" in
all-uppercase spelling, paths starting with ".github", the exact paths
".gitignore" and "gprepo", paths containing "LICENSE", paths ending in
".lock", and paths containing "README"; and any entry whose path string
matches the set is skipped. -/
theorem default_globs_amended :
    (∀ (user : List (List Char → Bool)) (f : List Char → Bool),
        f ∈ defaultPatternMatchers → f ∈ exclude_set user)
    ∧ (∀ (user : List (List Char → Bool)) (s : List Char),
        (containsSub (("changelog").toList) s || containsSub (("CHANGELOG").toList) s
          || ((".github").toList).isPrefixOf s || s == (".gitignore").toList
          || s == ("gprepo").toList || containsSub (("LICENSE").toList) s
          || ((".lock").toList).isSuffixOf s || containsSub (("README").toList) s) = true →
        globSetIsMatch (exclude_set user) s = true)
    ∧ ∀ (cfg : Config) (e : Entry) (user : List (List Char → Bool)),
        cfg.globs = exclude_set user →
        globSetIsMatch cfg.globs (pathStrOf e) = true →
        pipelineDecision cfg e = Verdict.skip := by
  refine ⟨?_, ?_, ?_⟩
  · intro user f hf
    exact List.mem_append_right user hf
  · intro user s h
    unfold globSetIsMatch exclude_set
    rw [List.any_append]
    simp only [defaultPatternMatchers, List.any_cons, List.any_nil, Bool.or_false,
      matchChangelogLower, matchChangelogUpper, matchGithub, matchGitignoreFile,
      matchGprepo, matchLicense, matchLockSuffix, matchReadme]
    simp only [Bool.or_eq_true] at h ⊢
    tauto
  · intro cfg e user hglobs hmatch
    unfold pipelineDecision
    split_ifs <;> first | rfl | simp_all

/-- Claim C6 counterexample: the path Changelog is a changelog name in
some letter case, yet the seeded set does not match it and an entry with
that path is emitted under an otherwise unrestricted run. -/
theorem default_globs_counterexample :
    isChangelogNameAnyCase (("Changelog").toList) = true
    ∧ globSetIsMatch (exclude_set []) (("Changelog").toList) = false
    ∧ pipelineDecision plainCfg changelogEntry = Verdict.emit := by
  refine ⟨by decide, by decide, ?_⟩
  rw [pipeline_emit_iff]
  refine ⟨rfl, by decide, by decide, rfl, by decide, by decide, ?_⟩
  rw [is_binary_spec]
  decide

/-- Claim C6 witness: Cargo.lock matches the seeded "*.lock" default and
is skipped. -/
theorem default_globs_witness : pipelineDecision plainCfg lockEntry = Verdict.skip :=
  default_globs_amended.2.2 plainCfg lockEntry [] rfl (by decide)

/-- Claim C7 (amended): the output self-exclusion skips an entry exactly
when the configured output path, as given, equals the entry's path;
no resolution is performed before comparing. -/
theorem output_self_exclusion_amended :
    ∀ (cfg : Config) (e : Entry),
      cfg.outputPath = some e.path → pipelineDecision cfg e = Verdict.skip := by
  intro cfg e h
  unfold pipelineDecision
  split_ifs <;> first | rfl | simp_all

/-- Claim C7 counterexample: a relative output path and the same file seen
by the walk under its absolute path resolve to the same file, yet the
entry is emitted, because the source compares the paths verbatim. -/
theorem output_self_exclusion_counterexample :
    resolvePath (("/w").toList) (("out.txt").toList)
        = resolvePath (("/w").toList) (("/w/out.txt").toList)
    ∧ outputSelfCfg.outputPath = some (("out.txt").toList)
    ∧ outputSelfEntry.path = ("/w/out.txt").toList
    ∧ pipelineDecision outputSelfCfg outputSelfEntry = Verdict.emit := by
  refine ⟨by decide, rfl, rfl, ?_⟩
  rw [pipeline_emit_iff]
  refine ⟨rfl, by decide, by decide, rfl, by decide, by decide, ?_⟩
  rw [is_binary_spec]
  decide

/-- Claim C7 witness: when the configured output path equals the entry's
path verbatim, the entry is skipped. -/
theorem output_self_exclusion_witness :
    pipelineDecision outputAbsCfg outputAbsEntry = Verdict.skip :=
  output_self_exclusion_amended outputAbsCfg outputAbsEntry rfl

/-- Claim C8: an entry whose last-modified time is at or after the process
start time is skipped and never emitted, whatever else holds. -/
theorem modification_time_skip :
    ∀ (cfg : Config) (e : Entry) (t : Nat),
      e.modified = some t → cfg.startTime ≤ t →
      pipelineDecision cfg e = Verdict.skip := by
  intro cfg e t hm hle
  have hms : mtimeSkip cfg e = true := by
    unfold mtimeSkip
    rw [hm]
    exact decide_eq_true hle
  unfold pipelineDecision
  split_ifs <;> first | rfl | simp_all

/-- Claim C8 witness: a file modified at time 7 in a run started at time 5
is skipped. -/
theorem modification_time_skip_witness :
    pipelineDecision mtimeCfg mtimeEntry = Verdict.skip :=
  modification_time_skip mtimeCfg mtimeEntry 7 rfl (by decide)

/-- Claim C9 (amended): when the relative path is not valid UTF-8, the
path string seen by the string-based filters is the empty string, and the
pipeline behaves exactly as on an entry whose relative path is empty; with
include prefixes configured the entry is skipped unless one of them strips
to the empty string, which matches the empty path; and such an entry
passes every configured path filter that does not itself match the empty
string, so it is emitted when the remaining stages pass. -/
theorem invalid_utf8_path_amended :
    (∀ (cfg : Config) (e : Entry), e.relPathUtf8 = none →
        pathStrOf e = []
        ∧ pipelineDecision cfg e
            = pipelineDecision cfg ⟨e.isFile, e.path, some [], e.ignored, e.modified, e.bytes⟩)
    ∧ (∀ (cfg : Config) (e : Entry) (ps : List (List Char)), e.relPathUtf8 = none →
        cfg.includeArgs = some ps → (∀ p ∈ ps, trimEndSlashes p ≠ []) →
        pipelineDecision cfg e = Verdict.skip)
    ∧ (∀ p : List Char, trimEndSlashes p = [] → is_child_of [] p = true)
    ∧ ∀ (cfg : Config) (e : Entry), e.relPathUtf8 = none →
        cfg.includeArgs = none →
        (∀ p ∈ cfg.excludeArgs.getD [], is_child_of [] p = false) →
        globSetIsMatch cfg.globs [] = false →
        e.isFile = true → e.ignored = false → ¬ cfg.outputPath = some e.path →
        mtimeSkip cfg e = false → is_binary e.bytes = false →
        pipelineDecision cfg e = Verdict.emit := by
  refine ⟨?_, ?_, ?_, ?_⟩
  · intro cfg e h
    obtain ⟨f, p, r, i, m, b⟩ := e
    simp only at h
    subst h
    exact ⟨rfl, rfl⟩
  · intro cfg e ps hnone hinc hps
    have hpath : pathStrOf e = [] := by
      unfold pathStrOf
      rw [hnone]
      rfl
    have hsi : shouldInclude cfg (pathStrOf e) = false := by
      unfold shouldInclude
      rw [hinc, hpath, List.any_eq_false]
      intro p hp
      rw [is_child_of_nil_false p (hps p hp)]
      exact Bool.false_ne_true
    unfold pipelineDecision
    split_ifs <;> first | rfl | simp_all
  · intro p h
    unfold is_child_of
    rw [h]
    rfl
  · intro cfg e hnone hincNone hexc hglob hfile hign hout hmt hbin
    have hpath : pathStrOf e = [] := by
      unfold pathStrOf
      rw [hnone]
      rfl
    have hse : shouldExclude cfg (pathStrOf e) = false := by
      unfold shouldExclude
      cases hc : cfg.excludeArgs with
      | none => rfl
      | some ps =>
        rw [hpath, List.any_eq_false]
        intro p hp
        rw [hexc p (by rw [hc]; exact hp)]
        exact Bool.false_ne_true
    have hsi : shouldInclude cfg (pathStrOf e) = true := by
      unfold shouldInclude
      rw [hincNone]
    rw [pipeline_emit_iff]
    refine ⟨hfile, by rw [hse, hsi]; rfl, by rw [hpath]; exact hglob, hign, hout, hmt, hbin⟩

/-- Claim C9 counterexample: a configured exclude prefix of "/" matches
only the empty path string, so an entry with an invalid-UTF-8 relative
path is skipped by that configured filter rather than bypassing it, while
the same entry is emitted once the filter is removed. -/
theorem invalid_utf8_path_counterexample :
    pipelineDecision slashExcludeCfg invalidUtf8Entry = Verdict.skip
    ∧ pipelineDecision plainCfg invalidUtf8EntryB = Verdict.emit := by
  constructor
  · decide
  · rw [pipeline_emit_iff]
    refine ⟨rfl, by decide, by decide, rfl, by decide, by decide, ?_⟩
    rw [is_binary_spec]
    decide

/-- Claim C9 witness: with the include prefix src configured, an entry
whose relative path is not valid UTF-8 is skipped, since its empty path
string matches no include. -/
theorem invalid_utf8_path_witness :
    pipelineDecision includeSrcCfg invalidUtf8Entry = Verdict.skip :=
  invalid_utf8_path_amended.2.1 includeSrcCfg invalidUtf8Entry [("src").toList]
    rfl rfl (by decide)

/-- Claim C10: when the modified time is unavailable, the
modification-time check is silently skipped and the entry is emitted
exactly when it passes every remaining stage. -/
theorem missing_mtime_check_skipped :
    ∀ (cfg : Config) (e : Entry), e.modified = none →
      (pipelineDecision cfg e = Verdict.emit ↔
        (e.isFile = true
         ∧ (shouldExclude cfg (pathStrOf e) || !shouldInclude cfg (pathStrOf e)) = false
         ∧ globSetIsMatch cfg.globs (pathStrOf e) = false
         ∧ e.ignored = false
         ∧ ¬ cfg.outputPath = some e.path
         ∧ is_binary e.bytes = false)) := by
  intro cfg e h
  have hmt : mtimeSkip cfg e = false := by
    unfold mtimeSkip
    rw [h]
  rw [pipeline_emit_iff]
  simp [hmt]

/-- Claim C10 witness: a file with no modified time available passes the
remaining stages and is emitted. -/
theorem missing_mtime_check_skipped_witness :
    pipelineDecision plainCfg noMtimeEntry = Verdict.emit := by
  have hb : is_binary noMtimeEntry.bytes = false := by
    rw [is_binary_spec]
    decide
  exact (missing_mtime_check_skipped plainCfg noMtimeEntry rfl).mpr
    ⟨rfl, by decide, by decide, rfl, by decide, hb⟩
